import Mathlib

/-!
Shallow embedding of the replicator-evolution simulation
(src/genome.py, src/agents.py, src/model.py).

Python floats are modelled by rationals, so all arithmetic in the model
is exact.  Two pieces of library code used by the repository are not in
the repository itself and are modelled explicitly, each marked
`Modelled from the spec:` in its doc comment:

* the CPython PRNG (`random.Random(seed)`): the spec only requires a
  single deterministic stream seeded by the world's constructor, so a
  linear-congruential state transition stands in for MT19937;
* `math.exp`: the genotype→phenotype squashing is parametric in a
  function `e : ℚ → ℚ` standing for `math.exp`; theorems assume only
  what is true of it (nonnegativity of its values).  A separate real
  version `logistic_bounded` with `Real.exp` is used for the phenotype
  bound claim, together with the IEEE-754 overflow threshold that makes
  CPython's `math.exp` raise `OverflowError`.
-/

/-- Modelled from the spec: the single seeded random stream owned by the
world (CPython's MT19937 is standard-library code, not in the
repository).  A linear-congruential state transition stands in for it. -/
def lcgNext (s : ℕ) : ℕ := (1103515245 * s + 12345) % 2147483648

/-- Modelled from the spec: `random.random()`, one uniform draw in `[0,1)`. -/
def nextUnit (s : ℕ) : ℚ × ℕ :=
  ((lcgNext s : ℚ) / 2147483648, lcgNext s)

/-- Modelled from the spec: `random._randbelow(n)` / `randrange(n)`,
one draw below `n` from the stream. -/
def nextBelow (s n : ℕ) : ℕ × ℕ := (lcgNext s % n, lcgNext s)

/-- `random.uniform(a, b)`: `a + (b - a) * random()`. -/
def uniformQ (s : ℕ) (a b : ℚ) : ℚ × ℕ :=
  let u := nextUnit s
  (a + (b - a) * u.1, u.2)

/-- Modelled from the spec: `random.gauss(mu, sigma)` — one draw whose
value is `mu` plus `sigma` times a mean-zero variate of the stream; the
exact shape of the variate is irrelevant to every claim below. -/
def gaussQ (s : ℕ) (mu sigma : ℚ) : ℚ × ℕ :=
  let u := nextUnit s
  (mu + sigma * (2 * u.1 - 1), u.2)

/-- One in-place swap of positions `i` and `j` of a list. -/
def swapAt {α : Type} (l : List α) (i j : ℕ) : List α :=
  match l.get? i, l.get? j with
  | some a, some b => (l.set i b).set j a
  | _, _ => l

/-- Modelled from the spec: the Fisher-Yates loop of `random.shuffle`,
`for i in reversed(range(1, len(x))): j = randbelow(i+1); swap i j`. -/
def shuffleGo {α : Type} : ℕ → List α → ℕ → List α × ℕ
  | 0, l, s => (l, s)
  | i + 1, l, s =>
    let j := nextBelow s (i + 2)
    shuffleGo i (swapAt l (i + 1) j.1) j.2

/-- Modelled from the spec: `random.shuffle`, driven by the world's stream. -/
def shuffleL {α : Type} (l : List α) (s : ℕ) : List α × ℕ :=
  match l.length with
  | 0 => (l, s)
  | n + 1 => shuffleGo n l s

/-- `Genome.raw` from src/genome.py: one real-valued allele per gene of
GENE_SPEC (`rep_gene`, `death_gene`, `mut_gene`, `met_gene`). -/
structure Genome where
  rep_gene : ℚ
  death_gene : ℚ
  mut_gene : ℚ
  met_gene : ℚ
  deriving DecidableEq

/-- `Genome.__init__`: one `gauss(mu, sigma)` draw per gene, in
GENE_SPEC order with the GENE_SPEC means and sigmas. -/
def Genome.new (s : ℕ) : Genome × ℕ :=
  let r := gaussQ s 0 1
  let d := gaussQ r.2 (-3) 1
  let m := gaussQ d.2 (-2) 1
  let t := gaussQ m.2 0 1
  (⟨r.1, d.1, m.1, t.1⟩, t.2)

/-- `logistic_bounded` from src/genome.py over the model rationals;
`e` stands for `math.exp` (see the header note). -/
def logistic_boundedQ (e : ℚ → ℚ) (x lo hi : ℚ) : ℚ :=
  lo + (hi - lo) * (1 / (1 + e (-x)))

/-- The four phenotype traits returned by `Genome.phenotype`. -/
structure Traits where
  replication_rate : ℚ
  mutation_rate : ℚ
  death_rate : ℚ
  metabolism : ℚ
  deriving DecidableEq

/-- `Genome.phenotype`: the GENE_SPEC squashing maps applied to `raw`. -/
def Genome.phenotype (g : Genome) (e : ℚ → ℚ) : Traits :=
  { replication_rate := logistic_boundedQ e g.rep_gene 0.02 0.50
    mutation_rate := logistic_boundedQ e g.mut_gene 0.001 0.20
    death_rate := logistic_boundedQ e g.death_gene 0.000 0.05
    metabolism := logistic_boundedQ e g.met_gene 0.05 0.60 }

/-- `Genome.mutated_copy(rnd)`: `child = Genome(rnd)` (whose fresh draws
are discarded but consume the stream), `child.raw = self.raw.copy()`,
then per-allele noise `gauss(0, scale)` with `scale = 0.35 * mr` for
`mut_gene` and `1.00 * mr` otherwise, `mr` being the parent's own
`mutation_rate` phenotype value. -/
def Genome.mutated_copy (g : Genome) (e : ℚ → ℚ) (s : ℕ) : Genome × ℕ :=
  let s0 := (Genome.new s).2
  let mr := (g.phenotype e).mutation_rate
  let n1 := gaussQ s0 0 (1.00 * mr)
  let n2 := gaussQ n1.2 0 (1.00 * mr)
  let n3 := gaussQ n2.2 0 (0.35 * mr)
  let n4 := gaussQ n3.2 0 (1.00 * mr)
  (⟨g.rep_gene + n1.1, g.death_gene + n2.1, g.mut_gene + n3.1, g.met_gene + n4.1⟩, n4.2)

/-- `ResourcePatch` from src/agents.py. -/
structure ResourcePatch where
  cap : ℚ
  regrowth : ℚ
  amount : ℚ
  deriving DecidableEq

/-- `ResourcePatch.step`: logistic-ish regrowth towards capacity, then
clamp above to `cap` and below to `0`. -/
def ResourcePatch.step (p : ResourcePatch) : ResourcePatch :=
  let a1 := p.amount + p.regrowth * (p.cap - p.amount)
  let a2 := if p.cap < a1 then p.cap else a1
  let a3 := if a2 < 0 then 0 else a2
  { p with amount := a3 }

/-- `ReplicatorAgent` state: owned genome, energy, immutable lineage id,
grid position.  `id` models Python object identity (used by the deferred
removal set and by in-place updates). -/
structure ReplicatorAgent where
  id : ℕ
  genome : Genome
  energy : ℚ
  lineage_id : ℕ
  pos : ℕ × ℕ
  deriving DecidableEq

/-- Association-list lookup, first match wins (a Python dict access). -/
def alk {α : Type} (k : ℕ) : List (ℕ × α) → Option α
  | [] => none
  | kv :: t => if kv.1 = k then some kv.2 else alk k t

/-- `defaultdict(int)` increment at key `k`. -/
def bump : List (ℕ × ℕ) → ℕ → List (ℕ × ℕ)
  | [], k => [(k, 1)]
  | kv :: t, k => if kv.1 = k then (kv.1, kv.2 + 1) :: t else kv :: bump t k

/-- `ReplicatorWorld._count_lineages_alive`: tally `lineage_id` over all
live replicator agents (flagged-but-not-yet-removed ones included). -/
def count_lineages_alive (l : List ReplicatorAgent) : List (ℕ × ℕ) :=
  l.foldl (fun c a => bump c a.lineage_id) []

/-- `history_lineage_counts[lin].append(c)` on a `defaultdict(list)`:
append to the entry of `k`, creating it at the end if absent. -/
def histPush : List (ℕ × List ℕ) → ℕ → ℕ → List (ℕ × List ℕ)
  | [], k, c => [(k, [c])]
  | ks :: t, k, c =>
    if ks.1 = k then (ks.1, ks.2 ++ [c]) :: t else ks :: histPush t k c

/-- First recording loop of `ReplicatorWorld.step`: append each counted
lineage's alive count to its history series. -/
def histAppendCounts (h : List (ℕ × List ℕ)) (counts : List (ℕ × ℕ)) :
    List (ℕ × List ℕ) :=
  counts.foldl (fun h2 kc => histPush h2 kc.1 kc.2) h

/-- Second recording loop of `ReplicatorWorld.step`: keep `0` for absent
lineages to align series lengths. -/
def histPad (h : List (ℕ × List ℕ)) (counts : List (ℕ × ℕ)) :
    List (ℕ × List ℕ) :=
  h.map (fun ks => if (alk ks.1 counts).isSome then ks else (ks.1, ks.2 ++ [0]))

/-- `ReplicatorWorld` state: grid dimensions, the single seeded stream,
one resource patch per cell, the registered replicator population in
registration order (flagged agents included until the deferred removal),
the deferred-removal set, the per-lineage birth counters, alive-count
histories and founder phenotype registry, the per-tick total-count
series collected by the data collector, and the fresh-identity counter. -/
structure ReplicatorWorld where
  width : ℕ
  height : ℕ
  rng : ℕ
  steps : ℕ
  max_agents : ℕ
  patches : ℕ × ℕ → ResourcePatch
  replicators : List ReplicatorAgent
  to_remove : List ℕ
  lineage_births : List (ℕ × ℕ)
  history_lineage_counts : List (ℕ × List ℕ)
  lineage_founder_genes : List (ℕ × Traits)
  historyN : List ℕ
  nextId : ℕ

/-- Moore-neighborhood candidate cells on the torus, radius 1,
duplicates removed (as Mesa's `get_neighborhood` returns unique cells). -/
def mooreCells (W H : ℕ) (p : ℕ × ℕ) : List (ℕ × ℕ) :=
  (([p.1 + (W - 1), p.1, p.1 + 1].map (fun x => x % W)).flatMap
    (fun x => ([p.2 + (H - 1), p.2, p.2 + 1].map (fun y => y % H)).map
      (fun y => (x, y)))).dedup

/-- `grid.get_neighborhood(pos, moore=True, include_center, radius=1)`. -/
def neighborhood (W H : ℕ) (p : ℕ × ℕ) (includeCenter : Bool) : List (ℕ × ℕ) :=
  if includeCenter then mooreCells W H p
  else (mooreCells W H p).filter (fun q => decide (q ≠ p))

/-- `min(patch.amount, base_intake * jitter)` from the harvest stage. -/
def harvestIntake (amt x : ℚ) : ℚ := min amt x

/-- The patch amount after `patch.amount -= intake` and the
`if patch.amount < 0.0: patch.amount = 0.0` clamp. -/
def harvestRemainder (amt x : ℚ) : ℚ :=
  let r := amt - harvestIntake amt x
  if r < 0 then 0 else r

/-- `p = replication_rate * min(1.0, (energy - 1.5) / 2.0)` (line 68 of
src/agents.py). -/
def replication_p (energy rep : ℚ) : ℚ := rep * min 1 ((energy - 1.5) / 2.0)

/-- The effective replication decision of lines 67-68 of src/agents.py
as a function of the uniform draw `u`: the surplus-energy gate
`energy > 1.5` guards the Bernoulli draw `u < p`. -/
def replicationEff (energy rep u : ℚ) : Bool :=
  if 1.5 < energy then decide (u < replication_p energy rep) else false

/-- Lines 78-81 of src/agents.py: `child_energy = self.energy * 0.5`,
then `self.energy *= 0.5`, then the child is created carrying the
parent's `lineage_id` unchanged. -/
def replicationUpdate (parent : ReplicatorAgent) (childGenome : Genome)
    (childPos : ℕ × ℕ) (childId : ℕ) : ReplicatorAgent × ReplicatorAgent :=
  let childEnergy := parent.energy * 0.5
  ({ parent with energy := parent.energy * 0.5 },
   { id := childId, genome := childGenome, energy := childEnergy,
     lineage_id := parent.lineage_id, pos := childPos })

/-- In-place mutation of one registered agent object (Python mutates the
object; the list models the registration order, so the update is by
identity). -/
def updateAgent (l : List ReplicatorAgent) (a : ReplicatorAgent) :
    List ReplicatorAgent :=
  l.map (fun b => if b.id = a.id then a else b)

/-- `self.model.to_remove.add(self)`: flag the agent for deferred
removal (set semantics; an agent is flagged at most once per tick). -/
def deathFlag (w : ReplicatorWorld) (i : ℕ) : ReplicatorWorld :=
  { w with to_remove := w.to_remove ++ [i] }

/-- Stages 1-3 of the agent tick after the energy gate: the agent object
has moved to `npos` and now carries energy `e2` (post-harvest,
post-metabolism), the patch underfoot lost the harvested intake, and the
stream has advanced to `rng2`. -/
def harvestWorld (w : ReplicatorWorld) (npos : ℕ × ℕ) (x : ℚ) (rng2 : ℕ)
    (a1 : ReplicatorAgent) : ReplicatorWorld :=
  { w with rng := rng2,
           patches := fun q =>
             if q = npos then
               { w.patches npos with amount := harvestRemainder (w.patches npos).amount x }
             else w.patches q,
           replicators := updateAgent w.replicators a1 }

/-- The world mutations of a successful replication: the halved parent
replaces its object in the registry, the child is registered at the end,
and the lineage's birth counter is incremented. -/
def birthWorld (w : ReplicatorWorld) (lin : ℕ) (par2 child : ReplicatorAgent) :
    ReplicatorWorld :=
  { w with replicators := updateAgent w.replicators par2 ++ [child],
           lineage_births := bump w.lineage_births lin,
           nextId := w.nextId + 1 }

/-- `ReplicatorAgent.step`: energy gate, move to a random Moore neighbor,
harvest from the patch underfoot, pay metabolism, stochastic death check,
then the surplus-energy replication gate. -/
def agentStep (e : ℚ → ℚ) (w : ReplicatorWorld) (i : ℕ) : ReplicatorWorld :=
  match w.replicators.find? (fun a => a.id == i) with
  | none => w
  | some a =>
    if a.energy ≤ 0 then deathFlag w i
    else
      let t := a.genome.phenotype e
      let nb := neighborhood w.width w.height a.pos true
      let mv := nextBelow w.rng nb.length
      let npos := nb.getD mv.1 a.pos
      let jit := uniformQ mv.2 0.8 1.2
      let x := (1 / (1 + t.metabolism)) * jit.1
      let intake := harvestIntake (w.patches npos).amount x
      let e2 := (a.energy + intake) - t.metabolism
      let dd := nextUnit jit.2
      let a1 : ReplicatorAgent := { a with pos := npos, energy := e2 }
      let w1 := harvestWorld w npos x dd.2 a1
      if dd.1 < t.death_rate ∨ e2 ≤ 0 then deathFlag w1 i
      else if 1.5 < e2 then
        let rd := nextUnit dd.2
        if rd.1 < replication_p e2 t.replication_rate then
          let nbs := neighborhood w.width w.height npos false
          let sh := shuffleL nbs rd.2
          let mc := a.genome.mutated_copy e sh.2
          let pc := replicationUpdate a1 mc.1 (sh.1.headD npos) w.nextId
          birthWorld { w1 with rng := mc.2 } a.lineage_id pc.1 pc.2
        else { w1 with rng := rd.2 }
      else w1

/-- A steppable grid entity: a resource patch (identified by its fixed
cell) or a replicator (identified by object identity). -/
inductive Ent where
  | patch : ℕ × ℕ → Ent
  | rep : ℕ → Ent
  deriving DecidableEq

/-- Dispatch one entity's per-type step behavior. -/
def entAct (e : ℚ → ℚ) (w : ReplicatorWorld) : Ent → ReplicatorWorld
  | .patch q =>
    { w with patches := fun q2 => if q2 = q then (w.patches q).step else w.patches q2 }
  | .rep i => agentStep e w i

/-- Grid cells in creation order (`for x in range(width): for y in
range(height)`). -/
def gridCells (W H : ℕ) : List (ℕ × ℕ) :=
  (List.range W).flatMap (fun x => (List.range H).map (fun y => (x, y)))

/-- `list(self.agents)`: every live entity, patches first then
replicators, in registration order. -/
def entityRefs (w : ReplicatorWorld) : List Ent :=
  (gridCells w.width w.height).map Ent.patch ++ w.replicators.map (fun a => Ent.rep a.id)

/-- Stage 1 of `ReplicatorWorld.step`: deferred removal — every agent
flagged during the previous tick is removed from the population, and the
removal set is cleared. -/
def removeFlagged (w : ReplicatorWorld) : ReplicatorWorld :=
  { w with
    replicators := w.replicators.filter (fun a => !w.to_remove.contains a.id),
    to_remove := ([] : List ℕ) }

/-- Stage 2 of `ReplicatorWorld.step`: shuffle the snapshot of all live
entities with the world's stream and step each one in that order. -/
def tickAgents (e : ℚ → ℚ) (w : ReplicatorWorld) : ReplicatorWorld :=
  let sh := shuffleL (entityRefs w) w.rng
  sh.1.foldl (entAct e) { w with rng := sh.2 }

/-- Stage 3 of `ReplicatorWorld.step`: record the per-lineage alive
counts (zero-padding absent lineages) and the collected total count. -/
def recordStep (w : ReplicatorWorld) : ReplicatorWorld :=
  let counts := count_lineages_alive w.replicators
  { w with
    history_lineage_counts := histPad (histAppendCounts w.history_lineage_counts counts) counts,
    historyN := w.historyN ++ [w.replicators.length] }

/-- `ReplicatorWorld.step`: deferred removal of flagged agents, one
randomized pass over all entities, then the per-lineage alive-count
recording (with zero-padding) and the collected total count. -/
def worldStep (e : ℚ → ℚ) (w : ReplicatorWorld) : ReplicatorWorld :=
  recordStep (tickAgents e (removeFlagged w))

/-- The constructor arguments of `ReplicatorWorld.__init__`. -/
structure Params where
  width : ℕ
  height : ℕ
  seed : ℕ
  founders : ℕ
  steps : ℕ
  patch_cap : ℚ
  patch_regrowth : ℚ
  init_patch : ℚ
  max_agents : ℕ
  deriving DecidableEq

/-- Accumulator of the founder-seeding loop. -/
structure SeedSt where
  rng : ℕ
  agents : List ReplicatorAgent
  reg : List (ℕ × Traits)

/-- One iteration of the founder loop: draw a genome, record the founder
phenotype under the fresh lineage id, place the founder (energy 2.0) at
`(randrange(width), randrange(height))`. -/
def seedFounder (e : ℚ → ℚ) (W H : ℕ) (st : SeedSt) (lin : ℕ) : SeedSt :=
  let gn := Genome.new st.rng
  let xr := nextBelow gn.2 W
  let yr := nextBelow xr.2 H
  { rng := yr.2,
    agents := st.agents ++ [⟨lin, gn.1, 2.0, lin, (xr.1, yr.1)⟩],
    reg := st.reg ++ [(lin, gn.1.phenotype e)] }

/-- `ReplicatorWorld.__init__`: seed the stream, create one patch per
cell (amount clamped into `[0, cap]`), then seed `founders` replicators
with distinct lineage ids `0, 1, ...` and snapshot their phenotypes in
the founder registry.  No argument validation is performed. -/
def initWorld (e : ℚ → ℚ) (p : Params) : ReplicatorWorld :=
  let patch0 : ResourcePatch :=
    ⟨p.patch_cap, p.patch_regrowth, max 0 (min p.patch_cap p.init_patch)⟩
  let st := (List.range p.founders).foldl (seedFounder e p.width p.height)
    ⟨p.seed, [], []⟩
  { width := p.width, height := p.height, rng := st.rng, steps := p.steps,
    max_agents := p.max_agents, patches := fun _ => patch0,
    replicators := st.agents, to_remove := [], lineage_births := [],
    history_lineage_counts := [], lineage_founder_genes := st.reg,
    historyN := [], nextId := p.founders }

/-- `n` ticks of the world. -/
def stepN (e : ℚ → ℚ) : ℕ → ReplicatorWorld → ReplicatorWorld
  | 0, w => w
  | n + 1, w => stepN e n (worldStep e w)

/-- `ReplicatorWorld.run`: step until the tick budget is exhausted, the
population is extinct, or the population exceeds the ceiling. -/
def runWorld (e : ℚ → ℚ) : ℕ → ReplicatorWorld → ReplicatorWorld
  | 0, w => w
  | n + 1, w =>
    if w.replicators.length = 0 ∨ w.max_agents < w.replicators.length then w
    else runWorld e n (worldStep e w)

/-- A full run from the constructor arguments. -/
def runSim (e : ℚ → ℚ) (p : Params) : ReplicatorWorld :=
  runWorld e p.steps (initWorld e p)

/-- `logistic_bounded` from src/genome.py over the reals, with the real
exponential in place of `math.exp`. -/
noncomputable def logistic_bounded (x lo hi : ℝ) : ℝ :=
  lo + (hi - lo) * (1 / (1 + Real.exp (-x)))

/-- The largest finite IEEE-754 double; CPython's `math.exp` raises
`OverflowError` whenever the true result exceeds it. -/
noncomputable def dblMax : ℝ := 2 ^ 1024 - 2 ^ 971

/-- A concrete instantiation of the `math.exp` model parameter used by
witnesses: the constant function 1 (nonnegative, as required). -/
def oneExp : ℚ → ℚ := fun _ => 1

/-- A second concrete instantiation of the `math.exp` model parameter,
the constant function 0, used by the extinction witness. -/
def zeroExp : ℚ → ℚ := fun _ => 0

/-- Concrete parameter set used by the determinism witness. -/
def pDet : Params := ⟨2, 2, 7, 2, 3, 10, 1/10, 5, 20000⟩

/-- Constructor input with zero founders, a degenerate configuration the
spec says should be rejected. -/
def pZeroFounders : Params := ⟨1, 1, 7, 0, 5, 10, 1/10, 5, 20000⟩

/-- Every patch of the assignment has amount within `[0, cap]` and a
nonnegative capacity. -/
def PatchOK (pa : ℕ × ℕ → ResourcePatch) : Prop :=
  ∀ q : ℕ × ℕ, 0 ≤ (pa q).amount ∧ (pa q).amount ≤ (pa q).cap ∧ 0 ≤ (pa q).cap

/-- Concrete parameter set used by the patch-bounds witness. -/
def pPatch : Params := ⟨2, 2, 3, 1, 4, 10, 1/10, 5, 20000⟩

/-- The keys of the founder-genome registry captured at seeding time. -/
def regKeys (w : ReplicatorWorld) : List ℕ := w.lineage_founder_genes.map Prod.fst

/-- Every lineage id visible in the world — on a live agent, in the
alive-count history, in the birth counters — is a registry key. -/
def LineageOK (w : ReplicatorWorld) : Prop :=
  (∀ a ∈ w.replicators, a.lineage_id ∈ regKeys w) ∧
  (∀ ks ∈ w.history_lineage_counts, ks.1 ∈ regKeys w) ∧
  (∀ kc ∈ w.lineage_births, kc.1 ∈ regKeys w)

/-- Concrete parameter set used by the lineage-conservation witness. -/
def pLin : Params := ⟨2, 2, 5, 1, 2, 10, 1/10, 5, 20000⟩

/-- Number of (possibly flagged) registered agents of lineage `k`. -/
def aliveCount (l : List ReplicatorAgent) (k : ℕ) : ℕ :=
  (l.filter (fun a => a.lineage_id == k)).length

/-- Once a series records 0, every later recorded entry is 0. -/
def ZeroMono (s : List ℕ) : Prop :=
  ∀ t1 t2 : ℕ, t1 < t2 → t2 < s.length → s.getD t1 1 = 0 → s.getD t2 1 = 0

/-- Per-tick invariant tying each recorded series to the live
population: keys are unique, every series is nonempty, its last entry is
the lineage's current (flagged-inclusive) agent count, and zeros are
final. -/
def HistInv (w : ReplicatorWorld) : Prop :=
  ((w.history_lineage_counts.map Prod.fst).Nodup) ∧
  ∀ ks ∈ w.history_lineage_counts,
    ks.2 ≠ [] ∧ ks.2.getD (ks.2.length - 1) 1 = aliveCount w.replicators ks.1 ∧
    ZeroMono ks.2

/-- Concrete parameter set used by the extinction witness: a 1-by-1
world with one founder and zero patch capacity, whose founder starves. -/
def pExt : Params := ⟨1, 1, 1, 1, 12, 0, 0, 0, 20000⟩

/-! Basic facts about the modelled stream draws. -/

theorem nextUnit_nonneg (s : ℕ) : 0 ≤ (nextUnit s).1 := by
  unfold nextUnit
  positivity

theorem nextUnit_lt_one (s : ℕ) : (nextUnit s).1 < 1 := by
  unfold nextUnit
  rw [div_lt_one (by norm_num)]
  have h : lcgNext s < 2147483648 := Nat.mod_lt _ (by norm_num)
  exact_mod_cast h

/-- Claim C4: immediately after a replication event the child's energy
and the parent's remaining energy are each half of the parent's
pre-replication energy, their sum equals the parent's pre-replication
energy exactly (the model's rationals are exact, so the floating-point
tolerance is not needed), and the child carries the parent's
`lineage_id` unchanged. -/
theorem replication_energy_split (parent : ReplicatorAgent) (g : Genome)
    (cpos : ℕ × ℕ) (cid : ℕ) :
    (replicationUpdate parent g cpos cid).2.energy = parent.energy * 0.5 ∧
    (replicationUpdate parent g cpos cid).1.energy = parent.energy * 0.5 ∧
    (replicationUpdate parent g cpos cid).2.energy
      + (replicationUpdate parent g cpos cid).1.energy = parent.energy ∧
    (replicationUpdate parent g cpos cid).2.lineage_id = parent.lineage_id := by
  refine ⟨rfl, rfl, ?_, rfl⟩
  show parent.energy * 0.5 + parent.energy * 0.5 = parent.energy
  ring

/-- Claim C9: at energy exactly 1.5 the replication gate `energy > 1.5`
is closed, so no uniform draw can trigger replication, whatever the
replication rate; at energy exactly 3.5 the scaling factor
`min(1, (energy - 1.5) / 2.0)` equals 1 exactly, so the replication
probability is the full replication rate. -/
theorem replication_gate_boundaries :
    (∀ rep u : ℚ, replicationEff 1.5 rep u = false) ∧
    min (1 : ℚ) ((3.5 - 1.5) / 2.0) = 1 ∧
    (∀ rep : ℚ, replication_p 3.5 rep = rep) := by
  refine ⟨fun rep u => ?_, by norm_num, fun rep => ?_⟩
  · simp [replicationEff]
  · show rep * min 1 ((3.5 - 1.5) / 2.0) = rep
    norm_num

/-- Claim C10: the harvest intake is `min(patch.amount, base_intake *
jitter)`, so the patch amount left after subtracting the intake is never
negative (the clamp to 0 is unreachable: the un-clamped remainder equals
the clamped one), and the agent's energy gain equals the patch's amount
decrease exactly. -/
theorem harvest_transfer_conserves (amt x en : ℚ) :
    ¬ (amt - harvestIntake amt x < 0) ∧
    harvestRemainder amt x = amt - harvestIntake amt x ∧
    (en + harvestIntake amt x) - en = amt - harvestRemainder amt x := by
  have h : ¬ (amt - harvestIntake amt x < 0) := by
    rw [not_lt, sub_nonneg]
    exact min_le_left _ _
  have h2 : harvestRemainder amt x = amt - harvestIntake amt x := by
    unfold harvestRemainder
    simp only [if_neg h]
  exact ⟨h, h2, by rw [h2]; ring⟩

/-- Claim C2: two worlds constructed with identical parameters are equal
as states, and running each for the configured tick budget yields
identical per-tick total-count series and identical per-lineage
alive-count histories — every random draw is taken from the single
stream seeded in the constructor and threaded through the world state,
so a run is a function of the constructor arguments alone. -/
theorem run_deterministic (e : ℚ → ℚ) (p : Params) (w1 w2 : ReplicatorWorld)
    (h1 : w1 = initWorld e p) (h2 : w2 = initWorld e p) :
    (runWorld e p.steps w1).historyN = (runWorld e p.steps w2).historyN ∧
    (runWorld e p.steps w1).history_lineage_counts
      = (runWorld e p.steps w2).history_lineage_counts := by
  subst h1
  subst h2
  exact ⟨rfl, rfl⟩

/-- Witness for C2 at a concrete parameter set. -/
theorem run_deterministic_witness :
    (runWorld oneExp pDet.steps (initWorld oneExp pDet)).historyN
      = (runWorld oneExp pDet.steps (initWorld oneExp pDet)).historyN ∧
    (runWorld oneExp pDet.steps (initWorld oneExp pDet)).history_lineage_counts
      = (runWorld oneExp pDet.steps (initWorld oneExp pDet)).history_lineage_counts :=
  run_deterministic oneExp pDet _ _ rfl rfl

/-- Claim C3 (code evaluated at the failing input): the constructor
performs no validation — with zero founders it silently builds a world
with an empty population, and `run` then returns immediately with an
empty time series instead of failing fast with a configuration error. -/
theorem constructor_accepts_zero_founders :
    (initWorld oneExp pZeroFounders).replicators = [] ∧
    (runSim oneExp pZeroFounders).historyN = [] :=
  ⟨rfl, rfl⟩

/-- Claim C1 (ideal part and failing part together): over exact real
arithmetic the logistic squash keeps every trait strictly inside its
`(lo, hi)` range for every real raw allele; but at the extreme raw
allele `x = -1e6` named by the claim, the argument passed to `math.exp`
is `1e6`, whose true exponential exceeds the largest finite IEEE-754
double, so CPython's `math.exp` — and with it `Genome.phenotype()` —
raises `OverflowError` instead of returning a bounded value. -/
theorem logistic_bounds_and_exp_overflow :
    (∀ x lo hi : ℝ, lo < hi →
      lo < logistic_bounded x lo hi ∧ logistic_bounded x lo hi < hi) ∧
    dblMax < Real.exp (-(-1000000 : ℝ)) := by
  constructor
  · intro x lo hi hlh
    have hexp : 0 < Real.exp (-x) := Real.exp_pos _
    have hden : 0 < 1 + Real.exp (-x) := by linarith
    have ht0 : 0 < 1 / (1 + Real.exp (-x)) := by positivity
    have ht1 : 1 / (1 + Real.exp (-x)) < 1 := by
      rw [div_lt_one hden]
      linarith
    unfold logistic_bounded
    constructor
    · nlinarith
    · nlinarith
  · have h2 : (2 : ℝ) ≤ Real.exp 1 := by
      have := Real.exp_one_gt_d9
      linarith
    have hpow : (2 : ℝ) ^ (1000000 : ℕ) ≤ Real.exp 1 ^ (1000000 : ℕ) :=
      pow_le_pow_left₀ (by norm_num) h2 _
    have hexp : Real.exp ((1000000 : ℕ) * (1 : ℝ)) = Real.exp 1 ^ (1000000 : ℕ) :=
      Real.exp_nat_mul 1 1000000
    have hbig : (2 : ℝ) ^ (1024 : ℕ) ≤ (2 : ℝ) ^ (1000000 : ℕ) :=
      pow_le_pow_right₀ (by norm_num) (by norm_num)
    have hd : dblMax < (2 : ℝ) ^ (1024 : ℕ) := by
      unfold dblMax
      have : (0 : ℝ) < 2 ^ (971 : ℕ) := by positivity
      linarith
    have : Real.exp (-(-1000000 : ℝ)) = Real.exp ((1000000 : ℕ) * (1 : ℝ)) := by
      norm_num
    rw [this, hexp]
    calc dblMax < (2 : ℝ) ^ (1024 : ℕ) := hd
      _ ≤ (2 : ℝ) ^ (1000000 : ℕ) := hbig
      _ ≤ Real.exp 1 ^ (1000000 : ℕ) := hpow

/-- Witness for C1's ideal part at a concrete input. -/
theorem logistic_bounds_witness :
    (0 : ℝ) < logistic_bounded 0 0 1 ∧ logistic_bounded 0 0 1 < 1 :=
  logistic_bounds_and_exp_overflow.1 0 0 1 (by norm_num)

/-- Claim C8: `mutated_copy` returns a new genome each of whose alleles
is the parent's corresponding allele plus one fresh `gauss(0, scale)`
noise term, where the scale is the parent's own `mutation_rate`
phenotype `mr` for `rep_gene`, `death_gene` and `met_gene` and
`0.35 * mr` for `mut_gene`; the parent genome value is unchanged by the
call (the child starts from an exact copy of the parent's `raw`). -/
theorem mutated_copy_structure (g : Genome) (e : ℚ → ℚ) (s : ℕ) :
    (g.mutated_copy e s).1.rep_gene
        = g.rep_gene + (gaussQ ((Genome.new s).2) 0
            (1.00 * (g.phenotype e).mutation_rate)).1 ∧
    (g.mutated_copy e s).1.death_gene
        = g.death_gene + (gaussQ (gaussQ ((Genome.new s).2) 0
            (1.00 * (g.phenotype e).mutation_rate)).2 0
            (1.00 * (g.phenotype e).mutation_rate)).1 ∧
    (g.mutated_copy e s).1.mut_gene
        = g.mut_gene + (gaussQ (gaussQ (gaussQ ((Genome.new s).2) 0
            (1.00 * (g.phenotype e).mutation_rate)).2 0
            (1.00 * (g.phenotype e).mutation_rate)).2 0
            (0.35 * (g.phenotype e).mutation_rate)).1 ∧
    (g.mutated_copy e s).1.met_gene
        = g.met_gene + (gaussQ (gaussQ (gaussQ (gaussQ ((Genome.new s).2) 0
            (1.00 * (g.phenotype e).mutation_rate)).2 0
            (1.00 * (g.phenotype e).mutation_rate)).2 0
            (0.35 * (g.phenotype e).mutation_rate)).2 0
            (1.00 * (g.phenotype e).mutation_rate)).1 :=
  ⟨rfl, rfl, rfl, rfl⟩

/-! Patch-amount bounds (claim C5 machinery). -/

theorem resourcePatchStep_bounds (p : ResourcePatch) (hc : 0 ≤ p.cap) :
    0 ≤ p.step.amount ∧ p.step.amount ≤ p.step.cap ∧ 0 ≤ p.step.cap := by
  unfold ResourcePatch.step
  dsimp only
  split_ifs <;> constructor <;> first | linarith | exact ⟨by linarith, hc⟩

theorem harvestRemainder_nonneg (amt x : ℚ) : 0 ≤ harvestRemainder amt x := by
  unfold harvestRemainder
  dsimp only
  split_ifs with h
  · exact le_refl 0
  · linarith

theorem harvestRemainder_le (amt x : ℚ) (ha : 0 ≤ amt) (hx : 0 ≤ x) :
    harvestRemainder amt x ≤ amt := by
  unfold harvestRemainder harvestIntake
  dsimp only
  have hmin : 0 ≤ min amt x := le_min ha hx
  split_ifs <;> linarith

theorem logistic_boundedQ_bounds (e : ℚ → ℚ) (he : ∀ y, 0 ≤ e y)
    (x lo hi : ℚ) (h : lo ≤ hi) :
    lo ≤ logistic_boundedQ e x lo hi ∧ logistic_boundedQ e x lo hi ≤ hi := by
  unfold logistic_boundedQ
  have h1 : (0 : ℚ) < 1 + e (-x) := by
    have := he (-x)
    linarith
  have ht0 : 0 < 1 / (1 + e (-x)) := by positivity
  have ht1 : 1 / (1 + e (-x)) ≤ 1 := by
    rw [div_le_one h1]
    have := he (-x)
    linarith
  constructor
  · nlinarith
  · nlinarith

theorem metabolism_pos (e : ℚ → ℚ) (he : ∀ y, 0 ≤ e y) (g : Genome) :
    0 < (g.phenotype e).metabolism := by
  have h := (logistic_boundedQ_bounds e he g.met_gene 0.05 0.60 (by norm_num)).1
  show 0 < logistic_boundedQ e g.met_gene 0.05 0.60
  linarith

theorem uniform_jitter_nonneg (s : ℕ) : 0 ≤ (uniformQ s 0.8 1.2).1 := by
  unfold uniformQ
  dsimp only
  have := nextUnit_nonneg s
  nlinarith

theorem patchOK_harvest (pa : ℕ × ℕ → ResourcePatch) (h : PatchOK pa)
    (npos : ℕ × ℕ) (x : ℚ) (hx : 0 ≤ x) :
    PatchOK (fun q =>
      if q = npos then { pa npos with amount := harvestRemainder (pa npos).amount x }
      else pa q) := by
  intro q
  by_cases hq : q = npos
  · simp only [hq, if_pos rfl]
    exact ⟨harvestRemainder_nonneg _ _,
      le_trans (harvestRemainder_le _ _ (h npos).1 hx) (h npos).2.1, (h npos).2.2⟩
  · simp only [if_neg hq]
    exact h q

theorem patchOK_stepcell (pa : ℕ × ℕ → ResourcePatch) (h : PatchOK pa) (c : ℕ × ℕ) :
    PatchOK (fun q2 => if q2 = c then (pa c).step else pa q2) := by
  intro q
  by_cases hq : q = c
  · simp only [hq, if_pos rfl]
    exact resourcePatchStep_bounds (pa c) (h c).2.2
  · simp only [if_neg hq]
    exact h q

/-! Structural lemmas about one agent tick. -/

theorem agentStep_hist (e : ℚ → ℚ) (w : ReplicatorWorld) (i : ℕ) :
    (agentStep e w i).history_lineage_counts = w.history_lineage_counts := by
  unfold agentStep deathFlag harvestWorld birthWorld
  split
  · rfl
  · dsimp only
    split_ifs <;> rfl

theorem agentStep_reg (e : ℚ → ℚ) (w : ReplicatorWorld) (i : ℕ) :
    (agentStep e w i).lineage_founder_genes = w.lineage_founder_genes := by
  unfold agentStep deathFlag harvestWorld birthWorld
  split
  · rfl
  · dsimp only
    split_ifs <;> rfl

theorem updateAgent_cases (l : List ReplicatorAgent) (a2 b : ReplicatorAgent)
    (hb : b ∈ updateAgent l a2) : b = a2 ∨ b ∈ l := by
  unfold updateAgent at hb
  rcases List.mem_map.1 hb with ⟨c, hc, hbc⟩
  by_cases h : c.id = a2.id
  · rw [if_pos h] at hbc
    exact Or.inl hbc.symm
  · rw [if_neg h] at hbc
    exact Or.inr (hbc ▸ hc)

set_option maxRecDepth 4000 in
theorem agentStep_replicators_sub (e : ℚ → ℚ) (w : ReplicatorWorld) (i : ℕ)
    (b : ReplicatorAgent) (hb : b ∈ (agentStep e w i).replicators) :
    ∃ a ∈ w.replicators, b.lineage_id = a.lineage_id := by
  unfold agentStep deathFlag harvestWorld birthWorld at hb
  split at hb
  · exact ⟨b, hb, rfl⟩
  · rename_i a heq
    have ha : a ∈ w.replicators := List.mem_of_find?_eq_some heq
    dsimp only at hb
    split_ifs at hb
    · exact ⟨b, hb, rfl⟩
    · rcases updateAgent_cases _ _ _ hb with h1 | h1
      · exact ⟨a, ha, by rw [h1]⟩
      · exact ⟨b, h1, rfl⟩
    · rcases List.mem_append.1 hb with h1 | h1
      · rcases updateAgent_cases _ _ _ h1 with h2 | h2
        · exact ⟨a, ha, by rw [h2]; rfl⟩
        · rcases updateAgent_cases _ _ _ h2 with h3 | h3
          · exact ⟨a, ha, by rw [h3]⟩
          · exact ⟨b, h3, rfl⟩
      · have hc : b = (replicationUpdate _ _ _ _).2 := List.mem_singleton.1 h1
        exact ⟨a, ha, by rw [hc]; rfl⟩
    · rcases updateAgent_cases _ _ _ hb with h1 | h1
      · exact ⟨a, ha, by rw [h1]⟩
      · exact ⟨b, h1, rfl⟩
    · rcases updateAgent_cases _ _ _ hb with h1 | h1
      · exact ⟨a, ha, by rw [h1]⟩
      · exact ⟨b, h1, rfl⟩

theorem deathFlag_patches (w : ReplicatorWorld) (i : ℕ) :
    (deathFlag w i).patches = w.patches := rfl

theorem birthWorld_patches (w : ReplicatorWorld) (lin : ℕ)
    (par2 child : ReplicatorAgent) :
    (birthWorld w lin par2 child).patches = w.patches := rfl

theorem harvestWorld_patchOK (w : ReplicatorWorld) (npos : ℕ × ℕ) (x : ℚ)
    (r : ℕ) (a1 : ReplicatorAgent) (h : PatchOK w.patches) (hx : 0 ≤ x) :
    PatchOK (harvestWorld w npos x r a1).patches := by
  unfold harvestWorld
  dsimp only
  exact patchOK_harvest w.patches h npos x hx

set_option maxRecDepth 4000 in
theorem agentStep_patchOK (e : ℚ → ℚ) (he : ∀ y, 0 ≤ e y)
    (w : ReplicatorWorld) (i : ℕ) (h : PatchOK w.patches) :
    PatchOK (agentStep e w i).patches := by
  unfold agentStep
  split
  · exact h
  · rename_i a heq
    dsimp only
    have hmet := metabolism_pos e he a.genome
    have hx : ∀ s : ℕ, 0 ≤ 1 / (1 + (a.genome.phenotype e).metabolism) * (uniformQ s 0.8 1.2).1 :=
      fun s => mul_nonneg (div_nonneg zero_le_one (by linarith)) (uniform_jitter_nonneg s)
    split_ifs
    · show PatchOK (deathFlag w i).patches
      rw [deathFlag_patches]
      exact h
    · rw [deathFlag_patches]
      exact harvestWorld_patchOK w _ _ _ _ h (hx _)
    · rw [birthWorld_patches]
      dsimp only
      exact harvestWorld_patchOK w _ _ _ _ h (hx _)
    · dsimp only
      exact harvestWorld_patchOK w _ _ _ _ h (hx _)
    · exact harvestWorld_patchOK w _ _ _ _ h (hx _)

theorem entAct_patchOK (e : ℚ → ℚ) (he : ∀ y, 0 ≤ e y)
    (w : ReplicatorWorld) (ent : Ent) (h : PatchOK w.patches) :
    PatchOK (entAct e w ent).patches := by
  cases ent with
  | patch q => exact patchOK_stepcell w.patches h q
  | rep i => exact agentStep_patchOK e he w i h

theorem foldl_entAct_patchOK (e : ℚ → ℚ) (he : ∀ y, 0 ≤ e y)
    (l : List Ent) : ∀ w : ReplicatorWorld, PatchOK w.patches →
    PatchOK (l.foldl (entAct e) w).patches := by
  induction l with
  | nil => exact fun w h => h
  | cons ent t ih => exact fun w h => ih _ (entAct_patchOK e he w ent h)

theorem worldStep_patchOK (e : ℚ → ℚ) (he : ∀ y, 0 ≤ e y)
    (w : ReplicatorWorld) (h : PatchOK w.patches) :
    PatchOK (worldStep e w).patches := by
  unfold worldStep recordStep tickAgents removeFlagged
  dsimp only
  exact foldl_entAct_patchOK e he _ _ h

theorem initWorld_patchOK (e : ℚ → ℚ) (p : Params) (hcap : 0 ≤ p.patch_cap) :
    PatchOK (initWorld e p).patches := by
  intro q
  refine ⟨le_max_left _ _, ?_, hcap⟩
  show max 0 (min p.patch_cap p.init_patch) ≤ p.patch_cap
  exact max_le hcap (min_le_left _ _)

theorem stepN_patchOK (e : ℚ → ℚ) (he : ∀ y, 0 ≤ e y) (n : ℕ) :
    ∀ w : ReplicatorWorld, PatchOK w.patches → PatchOK (stepN e n w).patches := by
  induction n with
  | zero => exact fun w h => h
  | succ n ih => exact fun w h => ih _ (worldStep_patchOK e he w h)

/-- Claim C5: starting from a construction that clamps the initial
amount into `[0, cap]`, after any number of ticks every patch's amount
lies in `[0, cap]` — regrowth clamps back into the band, and a harvest
subtracts `min(amount, intake)`, which can neither exceed the stock nor
drive it negative.  The `math.exp` model is assumed nonnegative-valued
(true of the real exponential and of its float rounding), and the
configured capacity nonnegative. -/
theorem patch_amount_bounded (e : ℚ → ℚ) (he : ∀ y, 0 ≤ e y) (p : Params)
    (hcap : 0 ≤ p.patch_cap) (n : ℕ) (q : ℕ × ℕ) :
    0 ≤ ((stepN e n (initWorld e p)).patches q).amount ∧
    ((stepN e n (initWorld e p)).patches q).amount
      ≤ ((stepN e n (initWorld e p)).patches q).cap := by
  have h := stepN_patchOK e he n (initWorld e p) (initWorld_patchOK e p hcap) q
  exact ⟨h.1, h.2.1⟩

/-- Witness for C5 at a concrete parameter set, one tick, one cell. -/
theorem patch_amount_bounded_witness :
    0 ≤ ((stepN oneExp 1 (initWorld oneExp pPatch)).patches (0, 0)).amount ∧
    ((stepN oneExp 1 (initWorld oneExp pPatch)).patches (0, 0)).amount
      ≤ ((stepN oneExp 1 (initWorld oneExp pPatch)).patches (0, 0)).cap :=
  patch_amount_bounded oneExp (fun _ => zero_le_one) pPatch (by show (0:ℚ) ≤ 10; norm_num) 1 (0, 0)

/-! Lineage bookkeeping lemmas (claims C6 and C7 machinery). -/

theorem bump_mem_cases (l : List (ℕ × ℕ)) (k : ℕ) (kc : ℕ × ℕ)
    (h : kc ∈ bump l k) : kc.1 = k ∨ kc ∈ l := by
  induction l with
  | nil =>
    unfold bump at h
    rw [List.mem_singleton] at h
    exact Or.inl (by rw [h])
  | cons kv t ih =>
    unfold bump at h
    by_cases hk : kv.1 = k
    · rw [if_pos hk] at h
      rcases List.mem_cons.1 h with h1 | h1
      · exact Or.inl (by rw [h1]; exact hk)
      · exact Or.inr (List.mem_cons_of_mem _ h1)
    · rw [if_neg hk] at h
      rcases List.mem_cons.1 h with h1 | h1
      · exact Or.inr (by rw [h1]; exact List.mem_cons_self _ _)
      · rcases ih h1 with h2 | h2
        · exact Or.inl h2
        · exact Or.inr (List.mem_cons_of_mem _ h2)

set_option maxRecDepth 4000 in
theorem agentStep_births_sub (e : ℚ → ℚ) (w : ReplicatorWorld) (i : ℕ)
    (kc : ℕ × ℕ) (hkc : kc ∈ (agentStep e w i).lineage_births) :
    kc ∈ w.lineage_births ∨ ∃ a ∈ w.replicators, kc.1 = a.lineage_id := by
  unfold agentStep deathFlag harvestWorld birthWorld at hkc
  split at hkc
  · exact Or.inl hkc
  · rename_i a heq
    have ha : a ∈ w.replicators := List.mem_of_find?_eq_some heq
    dsimp only at hkc
    split_ifs at hkc
    · exact Or.inl hkc
    · exact Or.inl hkc
    · rcases bump_mem_cases _ _ _ hkc with h1 | h1
      · exact Or.inr ⟨a, ha, h1⟩
      · exact Or.inl h1
    · exact Or.inl hkc
    · exact Or.inl hkc

theorem entAct_hist (e : ℚ → ℚ) (w : ReplicatorWorld) (ent : Ent) :
    (entAct e w ent).history_lineage_counts = w.history_lineage_counts := by
  cases ent with
  | patch q => rfl
  | rep i => exact agentStep_hist e w i

theorem entAct_reg (e : ℚ → ℚ) (w : ReplicatorWorld) (ent : Ent) :
    (entAct e w ent).lineage_founder_genes = w.lineage_founder_genes := by
  cases ent with
  | patch q => rfl
  | rep i => exact agentStep_reg e w i

theorem entAct_replicators_sub (e : ℚ → ℚ) (w : ReplicatorWorld) (ent : Ent)
    (b : ReplicatorAgent) (hb : b ∈ (entAct e w ent).replicators) :
    ∃ a ∈ w.replicators, b.lineage_id = a.lineage_id := by
  cases ent with
  | patch q => exact ⟨b, hb, rfl⟩
  | rep i => exact agentStep_replicators_sub e w i b hb

theorem entAct_births_sub (e : ℚ → ℚ) (w : ReplicatorWorld) (ent : Ent)
    (kc : ℕ × ℕ) (hkc : kc ∈ (entAct e w ent).lineage_births) :
    kc ∈ w.lineage_births ∨ ∃ a ∈ w.replicators, kc.1 = a.lineage_id := by
  cases ent with
  | patch q => exact Or.inl hkc
  | rep i => exact agentStep_births_sub e w i kc hkc

theorem foldl_entAct_hist (e : ℚ → ℚ) (l : List Ent) :
    ∀ w : ReplicatorWorld,
    (l.foldl (entAct e) w).history_lineage_counts = w.history_lineage_counts := by
  induction l with
  | nil => exact fun w => rfl
  | cons ent t ih => exact fun w => (ih _).trans (entAct_hist e w ent)

theorem foldl_entAct_reg (e : ℚ → ℚ) (l : List Ent) :
    ∀ w : ReplicatorWorld,
    (l.foldl (entAct e) w).lineage_founder_genes = w.lineage_founder_genes := by
  induction l with
  | nil => exact fun w => rfl
  | cons ent t ih => exact fun w => (ih _).trans (entAct_reg e w ent)

theorem foldl_entAct_replicators_sub (e : ℚ → ℚ) (l : List Ent) :
    ∀ w : ReplicatorWorld, ∀ b ∈ (l.foldl (entAct e) w).replicators,
    ∃ a ∈ w.replicators, b.lineage_id = a.lineage_id := by
  induction l with
  | nil => exact fun w b hb => ⟨b, hb, rfl⟩
  | cons ent t ih =>
    intro w b hb
    rcases ih _ b hb with ⟨a2, ha2, hlin⟩
    rcases entAct_replicators_sub e w ent a2 ha2 with ⟨a, ha, hlin2⟩
    exact ⟨a, ha, hlin.trans hlin2⟩

theorem foldl_entAct_births_sub (e : ℚ → ℚ) (l : List Ent) :
    ∀ w : ReplicatorWorld, ∀ kc ∈ (l.foldl (entAct e) w).lineage_births,
    kc ∈ w.lineage_births ∨ ∃ a ∈ w.replicators, kc.1 = a.lineage_id := by
  induction l with
  | nil => exact fun w kc hkc => Or.inl hkc
  | cons ent t ih =>
    intro w kc hkc
    rcases ih _ kc hkc with h1 | h1
    · exact entAct_births_sub e w ent kc h1
    · rcases h1 with ⟨a2, ha2, hlin⟩
      rcases entAct_replicators_sub e w ent a2 ha2 with ⟨a, ha, hlin2⟩
      exact Or.inr ⟨a, ha, hlin.trans hlin2⟩

theorem tickAgents_hist (e : ℚ → ℚ) (w : ReplicatorWorld) :
    (tickAgents e w).history_lineage_counts = w.history_lineage_counts := by
  unfold tickAgents
  dsimp only
  exact foldl_entAct_hist e _ _

theorem tickAgents_reg (e : ℚ → ℚ) (w : ReplicatorWorld) :
    (tickAgents e w).lineage_founder_genes = w.lineage_founder_genes := by
  unfold tickAgents
  dsimp only
  exact foldl_entAct_reg e _ _

theorem tickAgents_replicators_sub (e : ℚ → ℚ) (w : ReplicatorWorld)
    (b : ReplicatorAgent) (hb : b ∈ (tickAgents e w).replicators) :
    ∃ a ∈ w.replicators, b.lineage_id = a.lineage_id := by
  unfold tickAgents at hb
  dsimp only at hb
  have h2 := foldl_entAct_replicators_sub e _ _ b hb
  exact h2

theorem tickAgents_births_sub (e : ℚ → ℚ) (w : ReplicatorWorld)
    (kc : ℕ × ℕ) (hkc : kc ∈ (tickAgents e w).lineage_births) :
    kc ∈ w.lineage_births ∨ ∃ a ∈ w.replicators, kc.1 = a.lineage_id := by
  unfold tickAgents at hkc
  dsimp only at hkc
  have h2 := foldl_entAct_births_sub e _ _ kc hkc
  exact h2

theorem removeFlagged_replicators_sub (w : ReplicatorWorld)
    (b : ReplicatorAgent) (hb : b ∈ (removeFlagged w).replicators) :
    b ∈ w.replicators :=
  List.mem_of_mem_filter hb

theorem histPush_mem_cases (h : List (ℕ × List ℕ)) (k c : ℕ) (ks : ℕ × List ℕ)
    (hm : ks ∈ histPush h k c) : ks.1 = k ∨ ∃ ks2 ∈ h, ks.1 = ks2.1 := by
  induction h with
  | nil =>
    unfold histPush at hm
    rw [List.mem_singleton] at hm
    exact Or.inl (by rw [hm])
  | cons kv t ih =>
    unfold histPush at hm
    by_cases hk : kv.1 = k
    · rw [if_pos hk] at hm
      rcases List.mem_cons.1 hm with h1 | h1
      · exact Or.inl (by rw [h1]; exact hk)
      · exact Or.inr ⟨ks, List.mem_cons_of_mem _ h1, rfl⟩
    · rw [if_neg hk] at hm
      rcases List.mem_cons.1 hm with h1 | h1
      · exact Or.inr ⟨kv, List.mem_cons_self _ _, by rw [h1]⟩
      · rcases ih h1 with h2 | h2
        · exact Or.inl h2
        · rcases h2 with ⟨ks2, hks2, he2⟩
          exact Or.inr ⟨ks2, List.mem_cons_of_mem _ hks2, he2⟩

theorem histAppend_mem_cases (counts : List (ℕ × ℕ)) :
    ∀ h : List (ℕ × List ℕ), ∀ ks ∈ histAppendCounts h counts,
    (∃ ks2 ∈ h, ks.1 = ks2.1) ∨ ∃ kc ∈ counts, ks.1 = kc.1 := by
  induction counts with
  | nil => exact fun h ks hm => Or.inl ⟨ks, hm, rfl⟩
  | cons kc t ih =>
    intro h ks hm
    rcases ih _ ks hm with h1 | h1
    · rcases h1 with ⟨ks2, hks2, he2⟩
      rcases histPush_mem_cases h kc.1 kc.2 ks2 hks2 with h2 | h2
      · exact Or.inr ⟨kc, List.mem_cons_self _ _, he2.trans h2⟩
      · rcases h2 with ⟨ks3, hks3, he3⟩
        exact Or.inl ⟨ks3, hks3, he2.trans he3⟩
    · rcases h1 with ⟨kc2, hkc2, he2⟩
      exact Or.inr ⟨kc2, List.mem_cons_of_mem _ hkc2, he2⟩

theorem histPad_mem_cases (h : List (ℕ × List ℕ)) (counts : List (ℕ × ℕ))
    (ks : ℕ × List ℕ) (hm : ks ∈ histPad h counts) :
    ∃ ks2 ∈ h, ks.1 = ks2.1 := by
  unfold histPad at hm
  rcases List.mem_map.1 hm with ⟨ks2, hks2, he⟩
  refine ⟨ks2, hks2, ?_⟩
  rw [← he]
  split_ifs <;> rfl

theorem countfold_mem (l : List ReplicatorAgent) :
    ∀ c0 : List (ℕ × ℕ), ∀ kc ∈ l.foldl (fun c a => bump c a.lineage_id) c0,
    (∃ kv ∈ c0, kc.1 = kv.1) ∨ ∃ a ∈ l, kc.1 = a.lineage_id := by
  induction l with
  | nil => exact fun c0 kc hm => Or.inl ⟨kc, hm, rfl⟩
  | cons a t ih =>
    intro c0 kc hm
    rcases ih _ kc hm with h1 | h1
    · rcases h1 with ⟨kv, hkv, he⟩
      rcases bump_mem_cases c0 a.lineage_id kv hkv with h2 | h2
      · exact Or.inr ⟨a, List.mem_cons_self _ _, he.trans h2⟩
      · exact Or.inl ⟨kv, h2, he⟩
    · rcases h1 with ⟨a2, ha2, he⟩
      exact Or.inr ⟨a2, List.mem_cons_of_mem _ ha2, he⟩

theorem counts_mem_lineage (l : List ReplicatorAgent) (kc : ℕ × ℕ)
    (h : kc ∈ count_lineages_alive l) : ∃ a ∈ l, kc.1 = a.lineage_id := by
  rcases countfold_mem l [] kc h with h1 | h1
  · rcases h1 with ⟨kv, hkv, _⟩
    exact absurd hkv (List.not_mem_nil kv)
  · exact h1

theorem worldStep_reg (e : ℚ → ℚ) (w : ReplicatorWorld) :
    (worldStep e w).lineage_founder_genes = w.lineage_founder_genes := by
  unfold worldStep recordStep
  dsimp only
  exact tickAgents_reg e (removeFlagged w)

theorem worldStep_regKeys (e : ℚ → ℚ) (w : ReplicatorWorld) :
    regKeys (worldStep e w) = regKeys w := by
  unfold regKeys
  rw [worldStep_reg]

theorem worldStep_replicators_eq (e : ℚ → ℚ) (w : ReplicatorWorld) :
    (worldStep e w).replicators = (tickAgents e (removeFlagged w)).replicators := rfl

theorem worldStep_hist_eq (e : ℚ → ℚ) (w : ReplicatorWorld) :
    (worldStep e w).history_lineage_counts =
      (let counts := count_lineages_alive (tickAgents e (removeFlagged w)).replicators
       histPad (histAppendCounts w.history_lineage_counts counts) counts) := by
  show (recordStep (tickAgents e (removeFlagged w))).history_lineage_counts = _
  unfold recordStep
  dsimp only
  rw [tickAgents_hist]
  rfl

theorem worldStep_births_eq (e : ℚ → ℚ) (w : ReplicatorWorld) :
    (worldStep e w).lineage_births = (tickAgents e (removeFlagged w)).lineage_births := rfl

theorem worldStep_lineageOK (e : ℚ → ℚ) (w : ReplicatorWorld)
    (h : LineageOK w) : LineageOK (worldStep e w) := by
  obtain ⟨hag, hhist, hbirths⟩ := h
  have hw1 : ∀ b ∈ (tickAgents e (removeFlagged w)).replicators, b.lineage_id ∈ regKeys w := by
    intro b hb
    rcases tickAgents_replicators_sub e _ b hb with ⟨a, ha, hl⟩
    rw [hl]
    exact hag a (removeFlagged_replicators_sub w a ha)
  refine ⟨?_, ?_, ?_⟩
  · intro b hb
    rw [worldStep_regKeys]
    rw [worldStep_replicators_eq] at hb
    exact hw1 b hb
  · intro ks hks
    rw [worldStep_regKeys]
    rw [worldStep_hist_eq] at hks
    dsimp only at hks
    rcases histPad_mem_cases _ _ ks hks with ⟨ks2, hks2, he2⟩
    rcases histAppend_mem_cases _ _ ks2 hks2 with h1 | h1
    · rcases h1 with ⟨ks3, hks3, he3⟩
      rw [he2, he3]
      exact hhist ks3 hks3
    · rcases h1 with ⟨kc, hkc, he3⟩
      rcases counts_mem_lineage _ kc hkc with ⟨a, ha, he4⟩
      rw [he2, he3, he4]
      exact hw1 a ha
  · intro kc hkc
    rw [worldStep_regKeys]
    rw [worldStep_births_eq] at hkc
    rcases tickAgents_births_sub e _ kc hkc with h1 | h1
    · exact hbirths kc h1
    · rcases h1 with ⟨a, ha, he⟩
      rw [he]
      exact hag a (removeFlagged_replicators_sub w a ha)

theorem seedFounder_inv (e : ℚ → ℚ) (W H lin : ℕ) (st : SeedSt)
    (h : ∀ a ∈ st.agents, a.lineage_id ∈ st.reg.map Prod.fst) :
    ∀ a ∈ (seedFounder e W H st lin).agents,
      a.lineage_id ∈ (seedFounder e W H st lin).reg.map Prod.fst := by
  intro a ha
  unfold seedFounder at ha ⊢
  dsimp only at ha ⊢
  rcases List.mem_append.1 ha with h1 | h1
  · rw [List.map_append]
    exact List.mem_append_left _ (h a h1)
  · have h2 : a = ⟨lin, (Genome.new st.rng).1, 2.0, lin, ((nextBelow (Genome.new st.rng).2 W).1, (nextBelow (nextBelow (Genome.new st.rng).2 W).2 H).1)⟩ :=
      List.mem_singleton.1 h1
    rw [h2, List.map_append]
    refine List.mem_append_right _ ?_
    show lin ∈ [(lin, (Genome.new st.rng).1.phenotype e)].map Prod.fst
    simp

theorem seedfold_inv (e : ℚ → ℚ) (W H : ℕ) (l : List ℕ) :
    ∀ st : SeedSt, (∀ a ∈ st.agents, a.lineage_id ∈ st.reg.map Prod.fst) →
    ∀ a ∈ (l.foldl (seedFounder e W H) st).agents,
      a.lineage_id ∈ (l.foldl (seedFounder e W H) st).reg.map Prod.fst := by
  induction l with
  | nil => exact fun st h => h
  | cons lin t ih =>
    intro st h
    rw [List.foldl_cons]
    exact ih (seedFounder e W H st lin) (seedFounder_inv e W H lin st h)

theorem initWorld_lineageOK (e : ℚ → ℚ) (p : Params) :
    LineageOK (initWorld e p) := by
  refine ⟨?_, ?_, ?_⟩
  · intro a ha
    exact seedfold_inv e p.width p.height (List.range p.founders)
      ⟨p.seed, [], []⟩ (by intro a h2; exact absurd h2 (List.not_mem_nil a)) a ha
  · intro ks hks
    exact absurd hks (List.not_mem_nil ks)
  · intro kc hkc
    exact absurd hkc (List.not_mem_nil kc)

theorem stepN_regKeys (e : ℚ → ℚ) (n : ℕ) :
    ∀ w : ReplicatorWorld, regKeys (stepN e n w) = regKeys w := by
  induction n with
  | zero => exact fun w => rfl
  | succ n ih => exact fun w => (ih _).trans (worldStep_regKeys e w)

theorem stepN_lineageOK (e : ℚ → ℚ) (n : ℕ) :
    ∀ w : ReplicatorWorld, LineageOK w → LineageOK (stepN e n w) := by
  induction n with
  | zero => exact fun w h => h
  | succ n ih => exact fun w h => ih _ (worldStep_lineageOK e w h)

/-- Claim C6: in every reachable world state, every lineage id on a live
replicator, every key of the alive-count history, and every key of the
birth counters is a key of the founder registry captured at seeding
time, and the registry itself never changes after seeding — children
always inherit the parent's id, so only founders introduce ids. -/
theorem lineage_ids_from_founders (e : ℚ → ℚ) (p : Params) (n : ℕ) :
    regKeys (stepN e n (initWorld e p)) = regKeys (initWorld e p) ∧
    (∀ a ∈ (stepN e n (initWorld e p)).replicators,
      a.lineage_id ∈ regKeys (initWorld e p)) ∧
    (∀ ks ∈ (stepN e n (initWorld e p)).history_lineage_counts,
      ks.1 ∈ regKeys (initWorld e p)) ∧
    (∀ kc ∈ (stepN e n (initWorld e p)).lineage_births,
      kc.1 ∈ regKeys (initWorld e p)) := by
  have hk := stepN_regKeys e n (initWorld e p)
  have h := stepN_lineageOK e n (initWorld e p) (initWorld_lineageOK e p)
  exact ⟨hk, fun a ha => hk ▸ h.1 a ha, fun ks hks => hk ▸ h.2.1 ks hks,
    fun kc hkc => hk ▸ h.2.2 kc hkc⟩

-- Witness for C6: at a concrete parameter set, the founder agent's
-- lineage id is a registry key.
unseal Rat.add Rat.sub Rat.mul Rat.inv Rat.ofScientific in
theorem lineage_ids_from_founders_witness :
    ((stepN oneExp 0 (initWorld oneExp pLin)).replicators.headD
        ⟨0, ⟨0, 0, 0, 0⟩, 0, 0, (0, 0)⟩).lineage_id ∈ regKeys (initWorld oneExp pLin) :=
  (lineage_ids_from_founders oneExp pLin 0).2.1 _ (by decide)

theorem alk_bump (c : List (ℕ × ℕ)) (j k : ℕ) :
    alk k (bump c j) = if j = k then some ((alk k c).getD 0 + 1) else alk k c := by
  induction c with
  | nil =>
    by_cases h : j = k
    · simp [bump, alk, h]
    · simp [bump, alk, h]
  | cons kv t ih =>
    by_cases h1 : kv.1 = j
    · by_cases h2 : j = k
      · simp [bump, alk, h1, h2]
      · have h3 : ¬ kv.1 = k := by rw [h1]; exact h2
        simp [bump, alk, h1, h2, h3]
    · by_cases h3 : kv.1 = k
      · have h2 : ¬ j = k := fun he => h1 (by rw [h3, he])
        have h4 : ¬ k = j := fun he => h2 he.symm
        simp [bump, alk, h1, h2, h3, h4]
      · by_cases h2 : j = k
        · subst h2
          simp [bump, alk, h1, h3, ih]
        · simp [bump, alk, h1, h2, h3, ih]

theorem aliveCount_cons (a : ReplicatorAgent) (t : List ReplicatorAgent) (k : ℕ) :
    aliveCount (a :: t) k =
      if a.lineage_id = k then aliveCount t k + 1 else aliveCount t k := by
  unfold aliveCount
  rw [List.filter_cons]
  by_cases h : a.lineage_id = k
  · simp [h]
  · simp [h]

theorem alk_countfold (l : List ReplicatorAgent) (k : ℕ) :
    ∀ c0 : List (ℕ × ℕ),
    alk k (l.foldl (fun c a => bump c a.lineage_id) c0) =
      if aliveCount l k = 0 then alk k c0
      else some ((alk k c0).getD 0 + aliveCount l k) := by
  induction l with
  | nil =>
    intro c0
    simp [aliveCount]
  | cons a t ih =>
    intro c0
    rw [List.foldl_cons, ih (bump c0 a.lineage_id), aliveCount_cons, alk_bump]
    by_cases ha : a.lineage_id = k
    · rw [if_pos ha, if_pos ha]
      by_cases hct : aliveCount t k = 0
      · rw [if_pos hct, if_neg (by omega), hct]
      · rw [if_neg hct, if_neg (by omega)]
        congr 1
        simp
        omega
    · rw [if_neg ha, if_neg ha]

theorem alk_counts (l : List ReplicatorAgent) (k : ℕ) :
    alk k (count_lineages_alive l) =
      if aliveCount l k = 0 then none else some (aliveCount l k) := by
  unfold count_lineages_alive
  rw [alk_countfold]
  by_cases h : aliveCount l k = 0
  · rw [if_pos h, if_pos h]
    rfl
  · rw [if_neg h, if_neg h]
    simp [alk]

theorem fst_bump (l : List (ℕ × ℕ)) (k : ℕ) :
    (bump l k).map Prod.fst =
      if k ∈ l.map Prod.fst then l.map Prod.fst else l.map Prod.fst ++ [k] := by
  induction l with
  | nil => simp [bump]
  | cons kv t ih =>
    by_cases h1 : kv.1 = k
    · simp [bump, h1]
    · have h1s : ¬ k = kv.1 := fun he => h1 he.symm
      by_cases h3 : k ∈ t.map Prod.fst
      · simp [bump, h1, h3, ih, h1s]
      · simp [bump, h1, h3, ih, h1s]

theorem nodup_fst_bump (l : List (ℕ × ℕ)) (k : ℕ)
    (h : (l.map Prod.fst).Nodup) : ((bump l k).map Prod.fst).Nodup := by
  rw [fst_bump]
  split_ifs with hm
  · exact h
  · rw [List.nodup_append]
    exact ⟨h, List.nodup_singleton k, by simpa using hm⟩

theorem nodup_fst_countfold (l : List ReplicatorAgent) :
    ∀ c0 : List (ℕ × ℕ), ((c0.map Prod.fst).Nodup) →
    (((l.foldl (fun c a => bump c a.lineage_id) c0)).map Prod.fst).Nodup := by
  induction l with
  | nil => exact fun c0 h => h
  | cons a t ih =>
    intro c0 h
    rw [List.foldl_cons]
    exact ih _ (nodup_fst_bump c0 a.lineage_id h)

theorem nodup_fst_counts (l : List ReplicatorAgent) :
    ((count_lineages_alive l).map Prod.fst).Nodup :=
  nodup_fst_countfold l [] List.nodup_nil

theorem alk_histPush_self (h : List (ℕ × List ℕ)) (k c : ℕ) :
    alk k (histPush h k c) = some ((alk k h).getD [] ++ [c]) := by
  induction h with
  | nil => simp [histPush, alk]
  | cons ks t ih =>
    by_cases hk : ks.1 = k
    · simp [histPush, alk, hk]
    · simp [histPush, alk, hk, ih]

theorem alk_histPush_other (h : List (ℕ × List ℕ)) (k2 k c : ℕ)
    (hne : k2 ≠ k) : alk k (histPush h k2 c) = alk k h := by
  induction h with
  | nil => simp [histPush, alk, hne]
  | cons ks t ih =>
    by_cases hk : ks.1 = k2
    · have hk2 : ¬ ks.1 = k := by rw [hk]; exact hne
      simp [histPush, alk, hk, hk2, hne]
    · by_cases hk3 : ks.1 = k
      · have h4 : ¬ k = k2 := fun he => hk (by rw [hk3, he])
        simp [histPush, alk, hk, hk3, h4]
      · simp [histPush, alk, hk, hk3, ih]

theorem fst_histPush (h : List (ℕ × List ℕ)) (k c : ℕ) :
    (histPush h k c).map Prod.fst =
      if k ∈ h.map Prod.fst then h.map Prod.fst else h.map Prod.fst ++ [k] := by
  induction h with
  | nil => simp [histPush]
  | cons ks t ih =>
    by_cases h1 : ks.1 = k
    · simp [histPush, h1]
    · have h1s : ¬ k = ks.1 := fun he => h1 he.symm
      by_cases h3 : k ∈ t.map Prod.fst
      · simp [histPush, h1, h3, ih, h1s]
      · simp [histPush, h1, h3, ih, h1s]

theorem nodup_fst_histPush (h : List (ℕ × List ℕ)) (k c : ℕ)
    (hnd : (h.map Prod.fst).Nodup) : ((histPush h k c).map Prod.fst).Nodup := by
  rw [fst_histPush]
  split_ifs with hm
  · exact hnd
  · rw [List.nodup_append]
    exact ⟨hnd, List.nodup_singleton k, by simpa using hm⟩

theorem nodup_fst_histAppend (counts : List (ℕ × ℕ)) :
    ∀ h : List (ℕ × List ℕ), (h.map Prod.fst).Nodup →
    ((histAppendCounts h counts).map Prod.fst).Nodup := by
  induction counts with
  | nil => exact fun h hnd => hnd
  | cons kc t ih =>
    intro h hnd
    exact ih _ (nodup_fst_histPush h kc.1 kc.2 hnd)

theorem alk_histAppend_of_all (counts : List (ℕ × ℕ)) :
    ∀ h : List (ℕ × List ℕ), ∀ k : ℕ, (∀ kc ∈ counts, kc.1 ≠ k) →
    alk k (histAppendCounts h counts) = alk k h := by
  induction counts with
  | nil => exact fun h k _ => rfl
  | cons kc t ih =>
    intro h k hall
    show alk k (histAppendCounts (histPush h kc.1 kc.2) t) = alk k h
    rw [ih _ k (fun kc2 hm => hall kc2 (List.mem_cons_of_mem _ hm))]
    exact alk_histPush_other h kc.1 k kc.2 (hall kc (List.mem_cons_self _ _))

theorem alk_none_forall {α : Type} (l : List (ℕ × α)) (k : ℕ)
    (h : alk k l = none) : ∀ kv ∈ l, kv.1 ≠ k := by
  induction l with
  | nil => exact fun kv hm => absurd hm (List.not_mem_nil kv)
  | cons kv2 t ih =>
    intro kv hm
    unfold alk at h
    by_cases hk : kv2.1 = k
    · rw [if_pos hk] at h
      exact absurd h (by simp)
    · rw [if_neg hk] at h
      rcases List.mem_cons.1 hm with h1 | h1
      · rw [h1]
        exact hk
      · exact ih h kv h1

theorem alk_histAppend_some (counts : List (ℕ × ℕ)) :
    ∀ h : List (ℕ × List ℕ), ∀ k c, ((counts.map Prod.fst).Nodup) →
    alk k counts = some c →
    alk k (histAppendCounts h counts) = some ((alk k h).getD [] ++ [c]) := by
  induction counts with
  | nil =>
    intro h k c _ hk
    exact absurd hk (by simp [alk])
  | cons kc t ih =>
    intro h k c hnd hk
    rw [List.map_cons] at hnd
    have hnd2 := hnd.of_cons
    show alk k (histAppendCounts (histPush h kc.1 kc.2) t) = _
    by_cases hkc : kc.1 = k
    · have hc : c = kc.2 := by
        unfold alk at hk
        rw [if_pos hkc] at hk
        exact (Option.some_inj.1 hk).symm
      have hall : ∀ kc2 ∈ t, kc2.1 ≠ k := by
        intro kc2 hm he
        have : kc2.1 ∈ t.map Prod.fst := List.mem_map_of_mem _ hm
        rw [he, ← hkc] at this
        exact (List.nodup_cons.1 hnd).1 this
      rw [alk_histAppend_of_all t _ k hall, hc, ← hkc]
      exact alk_histPush_self h kc.1 kc.2
    · have hk2 : alk k t = some c := by
        unfold alk at hk
        rwa [if_neg hkc] at hk
      rw [ih _ k c hnd2 hk2, alk_histPush_other h kc.1 k kc.2 hkc]

theorem alk_cons {α : Type} (kv : ℕ × α) (t : List (ℕ × α)) (k : ℕ) :
    alk k (kv :: t) = if kv.1 = k then some kv.2 else alk k t := rfl

theorem alk_histPad (h : List (ℕ × List ℕ)) (counts : List (ℕ × ℕ)) (k : ℕ) :
    alk k (histPad h counts) =
      (alk k h).map (fun s => if (alk k counts).isSome then s else s ++ [0]) := by
  induction h with
  | nil => simp [histPad, alk]
  | cons ks t ih =>
    show alk k ((if (alk ks.1 counts).isSome then ks else (ks.1, ks.2 ++ [0]))
        :: histPad t counts) = _
    by_cases hp : (alk ks.1 counts).isSome
    · rw [if_pos hp, alk_cons, alk_cons]
      by_cases hk : ks.1 = k
      · rw [if_pos hk, if_pos hk, ← hk]
        simp [hp]
      · rw [if_neg hk, if_neg hk]
        exact ih
    · rw [if_neg hp, alk_cons, alk_cons]
      dsimp only
      by_cases hk : ks.1 = k
      · rw [if_pos hk, if_pos hk]
        have hp2 : ¬ (alk k counts).isSome := by rw [← hk]; exact hp
        simp [hp2]
      · rw [if_neg hk, if_neg hk]
        exact ih

theorem fst_histPad_eq (h : List (ℕ × List ℕ)) (counts : List (ℕ × ℕ)) :
    (histPad h counts).map Prod.fst = h.map Prod.fst := by
  induction h with
  | nil => rfl
  | cons ks t ih =>
    show (if (alk ks.1 counts).isSome then ks else (ks.1, ks.2 ++ [0])).1 :: _ = _
    split_ifs <;> exact congrArg (ks.1 :: ·) ih

theorem mem_of_alk {α : Type} (l : List (ℕ × α)) (k : ℕ) (v : α)
    (h : alk k l = some v) : (k, v) ∈ l := by
  induction l with
  | nil => exact absurd h (by simp [alk])
  | cons kv t ih =>
    unfold alk at h
    by_cases hk : kv.1 = k
    · rw [if_pos hk] at h
      have hv : v = kv.2 := (Option.some_inj.1 h).symm
      rw [hv, ← hk]
      exact List.mem_cons_self _ _
    · rw [if_neg hk] at h
      exact List.mem_cons_of_mem _ (ih h)

theorem alk_of_mem {α : Type} (l : List (ℕ × α))
    (hnd : (l.map Prod.fst).Nodup) (k : ℕ) (v : α) (hm : (k, v) ∈ l) :
    alk k l = some v := by
  induction l with
  | nil => exact absurd hm (List.not_mem_nil _)
  | cons kv t ih =>
    rw [List.map_cons] at hnd
    rcases List.mem_cons.1 hm with h1 | h1
    · rw [← h1]
      simp [alk]
    · have hk : ¬ kv.1 = k := by
        intro he
        have hmem : k ∈ t.map Prod.fst := by
          have h2 := List.mem_map_of_mem Prod.fst h1
          simpa using h2
        exact (List.nodup_cons.1 hnd).1 (he ▸ hmem)
      unfold alk
      rw [if_neg hk]
      exact ih (List.nodup_cons.1 hnd).2 h1

theorem aliveCount_zero_iff (l : List ReplicatorAgent) (k : ℕ) :
    aliveCount l k = 0 ↔ ∀ a ∈ l, a.lineage_id ≠ k := by
  unfold aliveCount
  rw [List.length_eq_zero, List.filter_eq_nil_iff]
  simp

theorem tickchain_dead (e : ℚ → ℚ) (w : ReplicatorWorld) (k : ℕ)
    (h : aliveCount w.replicators k = 0) :
    aliveCount (tickAgents e (removeFlagged w)).replicators k = 0 := by
  rw [aliveCount_zero_iff] at h ⊢
  intro b hb
  rcases tickAgents_replicators_sub e _ b hb with ⟨a, ha, hl⟩
  rw [hl]
  exact h a (removeFlagged_replicators_sub w a ha)

theorem getD_snoc (s : List ℕ) (c : ℕ) : (s ++ [c]).getD s.length 1 = c := by
  induction s with
  | nil => rfl
  | cons x t ih => exact ih

theorem zeroMono_snoc (s : List ℕ) (c : ℕ) (hz : ZeroMono s)
    (hc : (∃ t0, t0 < s.length ∧ s.getD t0 1 = 0) → c = 0) :
    ZeroMono (s ++ [c]) := by
  intro t1 t2 h12 h2 h0
  rw [List.length_append, List.length_singleton] at h2
  by_cases hlt : t2 < s.length
  · have h1lt : t1 < s.length := lt_trans h12 hlt
    rw [List.getD_append _ _ _ _ h1lt] at h0
    rw [List.getD_append _ _ _ _ hlt]
    exact hz t1 t2 h12 hlt h0
  · have ht2 : t2 = s.length := by omega
    have h1lt : t1 < s.length := by omega
    rw [List.getD_append _ _ _ _ h1lt] at h0
    rw [ht2, getD_snoc]
    exact hc ⟨t1, h1lt, h0⟩

theorem zeroMono_zero_last (s : List ℕ) (hz : ZeroMono s) (t0 : ℕ)
    (ht : t0 < s.length) (h0 : s.getD t0 1 = 0) :
    s.getD (s.length - 1) 1 = 0 := by
  by_cases he : t0 = s.length - 1
  · rw [← he]
    exact h0
  · exact hz t0 (s.length - 1) (by omega) (by omega) h0

theorem alk_recordStep (w : ReplicatorWorld) (k : ℕ) :
    alk k (recordStep w).history_lineage_counts =
      if aliveCount w.replicators k = 0
      then (alk k w.history_lineage_counts).map (fun s => s ++ [0])
      else some ((alk k w.history_lineage_counts).getD []
        ++ [aliveCount w.replicators k]) := by
  unfold recordStep
  dsimp only
  by_cases hz : aliveCount w.replicators k = 0
  · rw [if_pos hz]
    have hnone : alk k (count_lineages_alive w.replicators) = none := by
      rw [alk_counts, if_pos hz]
    rw [alk_histPad, alk_histAppend_of_all _ _ _ (alk_none_forall _ _ hnone), hnone]
    cases alk k w.history_lineage_counts <;> simp
  · rw [if_neg hz]
    have hsome : alk k (count_lineages_alive w.replicators)
        = some (aliveCount w.replicators k) := by
      rw [alk_counts, if_neg hz]
    rw [alk_histPad, alk_histAppend_some _ _ _ _ (nodup_fst_counts _) hsome, hsome]
    simp

theorem recordStep_replicators (w : ReplicatorWorld) :
    (recordStep w).replicators = w.replicators := rfl

theorem worldStep_histNodup (e : ℚ → ℚ) (w : ReplicatorWorld)
    (hnd : (w.history_lineage_counts.map Prod.fst).Nodup) :
    ((worldStep e w).history_lineage_counts.map Prod.fst).Nodup := by
  rw [worldStep_hist_eq]
  dsimp only
  rw [fst_histPad_eq]
  exact nodup_fst_histAppend _ _ hnd

theorem worldStep_histInv (e : ℚ → ℚ) (w : ReplicatorWorld) (h : HistInv w) :
    HistInv (worldStep e w) := by
  obtain ⟨hnd, hent⟩ := h
  have hnd2 := worldStep_histNodup e w hnd
  refine ⟨hnd2, ?_⟩
  intro ks hks
  obtain ⟨k, s⟩ := ks
  have halk : alk k (worldStep e w).history_lineage_counts = some s :=
    alk_of_mem _ hnd2 k s hks
  have hw1hist : (tickAgents e (removeFlagged w)).history_lineage_counts
      = w.history_lineage_counts := by
    rw [tickAgents_hist]
    rfl
  have hrec : (worldStep e w).history_lineage_counts
      = (recordStep (tickAgents e (removeFlagged w))).history_lineage_counts := rfl
  rw [hrec, alk_recordStep, hw1hist] at halk
  have hrep : (worldStep e w).replicators
      = (tickAgents e (removeFlagged w)).replicators := rfl
  dsimp only
  rw [hrep]
  by_cases hz : aliveCount (tickAgents e (removeFlagged w)).replicators k = 0
  · rw [if_pos hz] at halk
    rcases Option.map_eq_some'.1 halk with ⟨s0, hs0, hss⟩
    have hm0 : (k, s0) ∈ w.history_lineage_counts := mem_of_alk _ k s0 hs0
    obtain ⟨hne0, hlast0, hzm0⟩ := hent (k, s0) hm0
    subst hss
    refine ⟨by simp, ?_, ?_⟩
    · rw [List.length_append, List.length_singleton]
      have h5 : s0.length + 1 - 1 = s0.length := by omega
      rw [h5, getD_snoc, hz]
    · exact zeroMono_snoc s0 0 hzm0 (fun _ => rfl)
  · rw [if_neg hz] at halk
    have hs : s = (alk k w.history_lineage_counts).getD []
        ++ [aliveCount (tickAgents e (removeFlagged w)).replicators k] :=
      (Option.some_inj.1 halk).symm
    cases h0 : alk k w.history_lineage_counts with
    | none =>
      rw [h0] at hs
      dsimp only [Option.getD] at hs
      subst hs
      refine ⟨by simp, by simp, ?_⟩
      intro t1 t2 h12 h2 h0c
      simp at h2
      omega
    | some s0 =>
      rw [h0] at hs
      dsimp only [Option.getD] at hs
      have hm0 : (k, s0) ∈ w.history_lineage_counts := mem_of_alk _ k s0 h0
      obtain ⟨hne0, hlast0, hzm0⟩ := hent (k, s0) hm0
      subst hs
      refine ⟨by simp, ?_, ?_⟩
      · rw [List.length_append, List.length_singleton]
        have h5 : s0.length + 1 - 1 = s0.length := by omega
        rw [h5, getD_snoc]
      · refine zeroMono_snoc s0 _ hzm0 ?_
        rintro ⟨t0, ht0, h0t⟩
        have hlz : s0.getD (s0.length - 1) 1 = 0 := zeroMono_zero_last s0 hzm0 t0 ht0 h0t
        have : aliveCount w.replicators k = 0 := by
          rw [← hlast0, hlz]
        exact tickchain_dead e w k this

theorem initWorld_histInv (e : ℚ → ℚ) (p : Params) :
    HistInv (initWorld e p) := by
  constructor
  · exact List.nodup_nil
  · intro ks hks
    exact absurd hks (List.not_mem_nil ks)

theorem stepN_histInv (e : ℚ → ℚ) (n : ℕ) :
    ∀ w : ReplicatorWorld, HistInv w → HistInv (stepN e n w) := by
  induction n with
  | zero => exact fun w h => h
  | succ n ih => exact fun w h => ih _ (worldStep_histInv e w h)

/-- Claim C7: in any recorded per-lineage alive-count series, once an
entry is 0 every later entry is 0 — a lineage's count includes agents
flagged for deferred removal, children are only ever created by an agent
of the same lineage, and removals precede stepping, so an extinct
lineage can never reappear. -/
theorem lineage_extinction_monotone (e : ℚ → ℚ) (p : Params) (n : ℕ)
    (lin : ℕ) (s : List ℕ) (t1 t2 : ℕ)
    (hmem : (lin, s) ∈ (stepN e n (initWorld e p)).history_lineage_counts)
    (h12 : t1 < t2) (h2 : t2 < s.length) (h0 : s.getD t1 1 = 0) :
    s.getD t2 1 = 0 :=
  ((stepN_histInv e n (initWorld e p) (initWorld_histInv e p)).2
    (lin, s) hmem).2.2 t1 t2 h12 h2 h0

-- Witness for C7: with `zeroExp` the single lineage's recorded series
-- is [1, 1, 1, 1, 0, 0]; the zero at index 4 forces the zero at index 5.
unseal Rat.add Rat.sub Rat.mul Rat.inv Rat.ofScientific in
theorem lineage_extinction_monotone_witness :
    ([1, 1, 1, 1, 0, 0] : List ℕ).getD 5 1 = 0 :=
  lineage_extinction_monotone zeroExp pExt 6 0 [1, 1, 1, 1, 0, 0] 4 5
    (by decide) (by decide) (by decide) (by decide)
